import Mathlib

/-!
Verification development for the qt-translation-generator repository.

The definitions below are a shallow embedding of
`src/qttranslationgenerator/qt_translation_file_generator.py`:

* `pyReplace` models Python `str.replace` (left-to-right, non-overlapping);
* `replace_special_characters` models
  `QtTranslationFileGenerator.replace_special_characters`;
* `natToChars` models Python `str(k)` for a natural number `k`;
* `ParsePythonFormat` (with `encodeCore`, `ParsePythonFormat.reverse`)
  models the `_ParsePythonFormat` class: its constructor masks brace
  placeholders with `{0}`, `{1}`, ... and `reverse` re-inserts the stored
  inner texts; a `KeyError` raised by the dictionary lookup in `reverse`
  is modelled by the value `none`;
* `parse_message_node`, `run_messages`, `load_cache`, `translate`,
  `persisted_cache_file` and the file-system model `FileState` embed the
  `QtTranslationFileGenerator` class: exceptions are modelled as error
  results, the JSON cache file as an optional `Json` value.

All recursive functions take an explicit fuel argument bounded by the
length of the scanned list, so that every definition is structurally
recursive and evaluates by kernel reduction on concrete inputs.
-/

/-- Model of Python `s.replace(old, new)` restricted to non-empty `old`:
left-to-right scan, non-overlapping replacement, replaced text is not
rescanned.  `fuel` bounds the recursion; `fuel = s.length` suffices. -/
def replCore : Nat → List Char → List Char → List Char → List Char
  | 0, _, _, s => s
  | _ + 1, _, _, [] => []
  | fuel + 1, old, new, c :: rest =>
    if old ≠ [] ∧ old.isPrefixOf (c :: rest) then
      new ++ replCore fuel old new ((c :: rest).drop old.length)
    else
      c :: replCore fuel old new rest

/-- Python `s.replace(old, new)` on `String`s (for non-empty `old`). -/
def pyReplace (s old new : String) : String :=
  ⟨replCore s.data.length old.data new.data s.data⟩

/-- Embedding of `QtTranslationFileGenerator.replace_special_characters`:
the five entity replacements in source order, then stripping of every
remaining `&`.  The replacement text for `&amp;` is the two characters
backslash-ampersand, exactly as the Python literal `"\&"`. -/
def replace_special_characters (str_in : String) : String :=
  pyReplace
    (pyReplace
      (pyReplace
        (pyReplace
          (pyReplace
            (pyReplace str_in "&quot;" "\"")
            "&apos;" "\x27")
          "&lt;" "<")
        "&gt;" ">")
      "&amp;" "\\&")
    "&" ""

/-- The character for a single decimal digit (`str` of one digit). -/
def digitChar : Nat → Char
  | 0 => '0'
  | 1 => '1'
  | 2 => '2'
  | 3 => '3'
  | 4 => '4'
  | 5 => '5'
  | 6 => '6'
  | 7 => '7'
  | 8 => '8'
  | _ => '9'

/-- The character class `[0-9]` of the regexes in `_ParsePythonFormat`. -/
def isDig (c : Char) : Bool :=
  48 ≤ c.toNat && c.toNat ≤ 57

/-- Decimal digit list of a natural number, most significant first,
with explicit fuel (`fuel > n` suffices). -/
def natToCharsCore : Nat → Nat → List Char
  | 0, _ => []
  | fuel + 1, n =>
    if n < 10 then [digitChar n]
    else natToCharsCore fuel (n / 10) ++ [digitChar (n % 10)]

/-- Model of Python `str(n)` for a natural number `n`. -/
def natToChars (n : Nat) : List Char :=
  natToCharsCore (n + 1) n

/-- Value of a digit list read back in base 10 with accumulator `a`. -/
def charsToNat (a : Nat) : List Char → Nat
  | [] => a
  | c :: rest => charsToNat (10 * a + (c.toNat - 48)) rest

/-- Leftmost split of a character list at the first `}`:
`findRBrace l = some (a, b)` when `l = a ++ '}' :: b` with no `}` in `a`.
This is how the non-greedy group of the regex `{([^}]*)}` selects the
inner text after an opening brace. -/
def findRBrace : List Char → Option (List Char × List Char)
  | [] => none
  | c :: rest =>
    if c = '}' then some ([], rest)
    else (findRBrace rest).map (fun p => (c :: p.1, p.2))

/-- Embedding of the loop in `_ParsePythonFormat.__init__`: a left-to-right
scan over the input replacing the k-th matched span `{inner}` by `{k}` and
recording `str(k) -> inner` in the mapping.  A `{` with no later `}` (and
everything after it) is copied through unchanged.  `fuel` bounds the
recursion; `fuel = input.length` suffices. -/
def encodeCore : Nat → Nat → List Char → List Char × List (String × String)
  | 0, _, _ => ([], [])
  | _ + 1, _, [] => ([], [])
  | fuel + 1, k, c :: rest =>
    if c = '{' then
      match findRBrace rest with
      | some (inner, after) =>
        let r := encodeCore fuel (k + 1) after
        ('{' :: (natToChars k ++ '}' :: r.1),
         (String.mk (natToChars k), String.mk inner) :: r.2)
      | none => ('{' :: rest, [])
    else
      let r := encodeCore fuel k rest
      (c :: r.1, r.2)

/-- Result of `_ParsePythonFormat(input)`: the placeholder map `_mapping`
and the masked text `output`. -/
structure ParsePythonFormat where
  mapping : List (String × String)
  output : String
deriving DecidableEq

/-- Embedding of the `_ParsePythonFormat` constructor. -/
def parsePythonFormat (input : String) : ParsePythonFormat :=
  { mapping := (encodeCore input.data.length 0 input.data).2,
    output := String.mk (encodeCore input.data.length 0 input.data).1 }

/-- Embedding of the `has_format` property (`len(self._mapping) > 0`). -/
def ParsePythonFormat.has_format (p : ParsePythonFormat) : Bool :=
  decide (0 < p.mapping.length)

/-- Embedding of the loop in `_ParsePythonFormat.reverse`: a left-to-right
scan for spans `{digits}` (the regex `{([0-9]*)}`); on a match the digit
string is looked up in the mapping — `none` models the `KeyError` the
Python dictionary access raises when the key is absent — and on success
the stored text is put back between the braces.  Unmatched text is copied
through.  `fuel` bounds the recursion; `fuel = output.length` suffices. -/
def reverseCore (M : List (String × String)) : Nat → List Char → Option (List Char)
  | 0, _ => some []
  | _ + 1, [] => some []
  | fuel + 1, c :: rest =>
    if c = '{' then
      match rest.dropWhile isDig with
      | c2 :: after =>
        if c2 = '}' then
          match List.lookup (String.mk (rest.takeWhile isDig)) M with
          | some v => (reverseCore M fuel after).map (fun t => '{' :: (v.data ++ '}' :: t))
          | none => none
        else
          (reverseCore M fuel rest).map (fun t => '{' :: t)
      | [] => (reverseCore M fuel rest).map (fun t => '{' :: t)
    else
      (reverseCore M fuel rest).map (fun t => c :: t)

/-- Embedding of `_ParsePythonFormat.reverse`; `none` models a raised
`KeyError`. -/
def ParsePythonFormat.reverse (p : ParsePythonFormat) (out : String) : Option String :=
  (reverseCore p.mapping out.data.length out.data).map String.mk

/-- The inner texts of the placeholders of the input, in scan order
(same scan as `encodeCore`, recording only the matched groups). -/
def scanInners : Nat → List Char → List (List Char)
  | 0, _ => []
  | _ + 1, [] => []
  | fuel + 1, c :: rest =>
    if c = '{' then
      match findRBrace rest with
      | some (inner, after) => inner :: scanInners fuel after
      | none => []
    else scanInners fuel rest

/-- The in-memory cache `translated_text_map`: an insertion-ordered list
of (normalized source text, translated text) pairs, as a Python dict of
strings. -/
abbrev Cache := List (String × String)

/-- A `translation` element of a message node: the optional `type`
attribute (`attrib.get("type")`) and the optional text content. -/
structure TrNode where
  ty : Option String
  text : Option String
deriving DecidableEq

/-- A `message` element: `find('source')` may be absent, and a present
source node has optional text; same for `find('translation')`. -/
structure MsgNode where
  source : Option (Option String)
  translation : Option TrNode
deriving DecidableEq

/-- Result of processing one message node: the possibly-updated node and
cache, or an uncaught exception re-raised by `__parse_message_node`. -/
inductive PResult where
  | ok : MsgNode → Cache → PResult
  | err : PResult
deriving DecidableEq

/-- Embedding of `QtTranslationFileGenerator.__parse_message_node`.
The backend (`google_translator.translate(...).text`) is a function
`String → Option String`, `none` modelling a raised exception.  The
returned `Nat` counts backend invocations (0 or 1).  Control flow follows
the source: no `translation` node, no `type` attribute, a `type` other
than `"unfinished"`, or non-empty text mean no mutation and no call;
otherwise the source text is normalized, looked up in the cache (hit:
write cached value, no call, no cache change), and on a miss encoded,
sent to the backend, decoded and stored.  A missing source node or
absent source text make the eligible branch raise (`AttributeError`),
modelled as `err`. -/
def parse_message_node (backend : String → Option String) (cache : Cache)
    (m : MsgNode) : PResult × Nat :=
  match m.translation with
  | none => (PResult.ok m cache, 0)
  | some t =>
    match t.ty with
    | none => (PResult.ok m cache, 0)
    | some ty =>
      if ty = "unfinished" ∧ (t.text = some "" ∨ t.text = none) then
        match m.source with
        | some (some s) =>
          match List.lookup (replace_special_characters s) cache with
          | some v =>
            (PResult.ok { m with translation := some { t with text := some v } } cache, 0)
          | none =>
            match backend (parsePythonFormat (replace_special_characters s)).output with
            | none => (PResult.err, 1)
            | some tr =>
              match (parsePythonFormat (replace_special_characters s)).reverse tr with
              | none => (PResult.err, 1)
              | some dec =>
                (PResult.ok { m with translation := some { t with text := some dec } }
                  (cache ++ [(replace_special_characters s, dec)]), 1)
        | _ => (PResult.err, 0)
      else (PResult.ok m cache, 0)

/-- Result of processing a list of message nodes. -/
inductive RResult where
  | ok : List MsgNode → Cache → RResult
  | err : RResult
deriving DecidableEq

/-- Embedding of the message loop of `__translate` /
`__parse_translation_context`: messages are processed in document order,
threading the cache; a raised exception aborts the whole loop.  The `Nat`
counts backend invocations. -/
def run_messages (backend : String → Option String) :
    Cache → List MsgNode → RResult × Nat
  | cache, [] => (RResult.ok [] cache, 0)
  | cache, m :: ms =>
    match parse_message_node backend cache m with
    | (PResult.err, n) => (RResult.err, n)
    | (PResult.ok m1 c1, n) =>
      match run_messages backend c1 ms with
      | (RResult.err, n2) => (RResult.err, n + n2)
      | (RResult.ok ms1 c2, n2) => (RResult.ok (m1 :: ms1) c2, n + n2)

/-- JSON values as produced by `json.load` (object keys are strings). -/
inductive Json where
  | null : Json
  | bool : Bool → Json
  | num : Int → Json
  | str : String → Json
  | arr : List Json → Json
  | obj : List (String × Json) → Json

/-- Is a JSON value a string?  (The per-value check of the `assert` on
cache values.) -/
def valIsStr : Json → Bool
  | Json.str _ => true
  | _ => false

/-- Is the parsed cache file a flat string-to-string mapping?  (The
condition the three `assert` statements in `translate` check.) -/
def flatOk : Json → Bool
  | Json.obj entries => entries.all (fun p => valIsStr p.2)
  | _ => false

/-- Extract the flat string map from the object entries; `none` when some
value is not a string. -/
def checkFlat : List (String × Json) → Option Cache
  | [] => some []
  | (k, Json.str v) :: rest => (checkFlat rest).map (fun c => (k, v) :: c)
  | _ => none

/-- Result of the cache-loading prologue of `translate`. -/
inductive LoadResult where
  | ok : Cache → LoadResult
  | corrupt : LoadResult

/-- Embedding of the cache-loading prologue of
`QtTranslationFileGenerator.translate`: `none` models an absent cache
file (`os.path.isfile` false — `translated_text_map` stays the empty dict
from `__init__`); a present file is parsed and must satisfy the three
`assert`s (a dict, all keys strings, all values strings), otherwise the
`AssertionError` is modelled as `corrupt`. -/
def load_cache : Option Json → LoadResult
  | none => LoadResult.ok []
  | some (Json.obj entries) =>
    match checkFlat entries with
    | some c => LoadResult.ok c
    | none => LoadResult.corrupt
  | some _ => LoadResult.corrupt

/-- Serialization of the cache back to JSON (`json.dump`). -/
def cacheToJson (c : Cache) : Json :=
  Json.obj (c.map (fun p => (p.1, Json.str p.2)))

/-- Result of a whole `translate` run. -/
inductive TResult where
  | ok : List MsgNode → Cache → TResult
  | err : TResult
deriving DecidableEq

/-- Embedding of `QtTranslationFileGenerator.translate` with a cache
file: load (and check) the cache, then process all messages; any raised
exception propagates.  The `Nat` counts backend invocations. -/
def translateRun (backend : String → Option String) (cacheFile : Option Json)
    (msgs : List MsgNode) : TResult × Nat :=
  match load_cache cacheFile with
  | LoadResult.corrupt => (TResult.err, 0)
  | LoadResult.ok c0 =>
    match run_messages backend c0 msgs with
    | (RResult.ok ms c, n) => (TResult.ok ms c, n)
    | (RResult.err, n) => (TResult.err, n)

/-- Content of the cache file after a run: the final mapping is dumped
(write temp file, then rename) only on the success path at the end of
`translate`; when the run raises, the dump is never reached and the file
keeps its previous content. -/
def persisted_cache_file (backend : String → Option String)
    (cacheFile : Option Json) (msgs : List MsgNode) : Option Json :=
  match translateRun backend cacheFile msgs with
  | (TResult.ok _ c, _) => some (cacheToJson c)
  | (TResult.err, _) => cacheFile

/-- File-system state for the cache path: the target file
(`cache_file`) and the temporary file (`cache_file + ".tmp"`). -/
structure FileState where
  target : Option Json
  tmp : Option Json

/-- First step of the flush in `translate`: `json.dump` of the mapping
into the temporary file.  The target is not touched. -/
def write_tmp_cache (c : Cache) (fs : FileState) : FileState :=
  { fs with tmp := some (cacheToJson c) }

/-- Second step: `os.rename(tmp_cache_file, cache_file)` — the temporary
file atomically replaces the target. -/
def rename_tmp (fs : FileState) : FileState :=
  { target := fs.tmp, tmp := none }

/-- The complete flush: write the temporary file, then rename it over the
target. -/
def flush_cache (c : Cache) (fs : FileState) : FileState :=
  rename_tmp (write_tmp_cache c fs)

/-- An eligible message whose source `"aa"` the fixture backend can
translate. -/
def msgA : MsgNode :=
  { source := some (some "aa"), translation := some { ty := some "unfinished", text := none } }

/-- An eligible message whose source `"bb"` makes the fixture backend
raise. -/
def msgB : MsgNode :=
  { source := some (some "bb"), translation := some { ty := some "unfinished", text := none } }

/-- `msgA` after its translation has been filled in. -/
def msgA_done : MsgNode :=
  { source := some (some "aa"), translation := some { ty := some "unfinished", text := some "AA" } }

/-- A message already carrying non-empty translation text (still marked
`unfinished`). -/
def msgUnfin : MsgNode :=
  { source := some (some "xx"), translation := some { ty := some "unfinished", text := some "done" } }

/-- Fixture backend: translates `"aa"` to `"AA"`, raises on anything
else. -/
def backendAB : String → Option String :=
  fun s => if s = "aa" then some "AA" else none

/-- An eligible message containing a placeholder. -/
def msgPh : MsgNode :=
  { source := some (some "hi {n}"), translation := some { ty := some "unfinished", text := none } }

/-- Fixture backend that returns its input unchanged. -/
def backendEcho : String → Option String :=
  fun s => some s

theorem replCore_zero (old new s) : replCore 0 old new s = s := rfl

/-- After replacing every occurrence of the single character `c` by the
empty string, `c` no longer occurs (given enough fuel). -/
theorem replCore_single_not_mem (c : Char) :
    ∀ (fuel : Nat) (l : List Char), l.length ≤ fuel →
      c ∉ replCore fuel [c] [] l := by
  intro fuel
  induction fuel with
  | zero =>
    intro l hl
    have : l = [] := List.length_eq_zero.mp (Nat.le_zero.mp hl)
    subst this
    simp [replCore]
  | succ n ih =>
    intro l hl
    match l with
    | [] => simp [replCore]
    | a :: rest =>
      by_cases hpre : ([c] ≠ []) ∧ List.isPrefixOf [c] (a :: rest)
      · rw [replCore, if_pos hpre]
        simp only [List.nil_append]
        have hdrop : ((a :: rest).drop 1).length ≤ n := by
          simp only [List.drop_succ_cons, List.drop_zero]
          simp at hl
          omega
        exact ih ((a :: rest).drop 1) hdrop
      · rw [replCore, if_neg hpre]
        have hac : a ≠ c := by
          intro h
          subst h
          exact hpre ⟨by simp, by simp [List.isPrefixOf]⟩
        intro hmem
        rcases List.mem_cons.mp hmem with h | h
        · exact hac h.symm
        · have hrest : rest.length ≤ n := by
            simp at hl; omega
          exact ih rest hrest h

theorem string_data_mk (l : List Char) : (String.mk l).data = l := rfl

/-- The output of `replace_special_characters` never contains an
ampersand: the final `replace("&", "")` removes them all. -/
theorem replace_special_no_amp (s : String) :
    '&' ∉ (replace_special_characters s).data := by
  unfold replace_special_characters
  generalize pyReplace (pyReplace (pyReplace (pyReplace (pyReplace s "&quot;" "\"")
      "&apos;" "\x27") "&lt;" "<") "&gt;" ">") "&amp;" "\\&" = t
  unfold pyReplace
  rw [string_data_mk]
  have hd : ("&" : String).data = ['&'] := rfl
  rw [hd]
  exact replCore_single_not_mem '&' t.data.length t.data (Nat.le_refl _)

theorem digitChar_isDig (d : Nat) : isDig (digitChar d) = true := by
  match d with
  | 0 | 1 | 2 | 3 | 4 | 5 | 6 | 7 | 8 => rfl
  | n + 9 => rfl

theorem digitChar_toNat (d : Nat) (h : d < 10) : (digitChar d).toNat = 48 + d := by
  match d with
  | 0 | 1 | 2 | 3 | 4 | 5 | 6 | 7 | 8 | 9 => rfl
  | n + 10 => omega

theorem natToCharsCore_isDig :
    ∀ (fuel n : Nat), ∀ c ∈ natToCharsCore fuel n, isDig c = true := by
  intro fuel
  induction fuel with
  | zero => intro n c hc; simp [natToCharsCore] at hc
  | succ m ih =>
    intro n c hc
    rw [natToCharsCore] at hc
    by_cases h : n < 10
    · rw [if_pos h] at hc
      simp at hc
      subst hc
      exact digitChar_isDig n
    · rw [if_neg h] at hc
      rcases List.mem_append.mp hc with h1 | h1
      · exact ih (n / 10) c h1
      · simp at h1
        subst h1
        exact digitChar_isDig (n % 10)

theorem natToChars_isDig (n : Nat) : ∀ c ∈ natToChars n, isDig c = true :=
  natToCharsCore_isDig (n + 1) n

theorem charsToNat_append (a : Nat) (l1 l2 : List Char) :
    charsToNat a (l1 ++ l2) = charsToNat (charsToNat a l1) l2 := by
  induction l1 generalizing a with
  | nil => rfl
  | cons c rest ih => exact ih (10 * a + (c.toNat - 48))

theorem natToCharsCore_val :
    ∀ (fuel n a : Nat), n < fuel →
      charsToNat a (natToCharsCore fuel n)
        = a * 10 ^ (natToCharsCore fuel n).length + n := by
  intro fuel
  induction fuel with
  | zero => intro n a h; omega
  | succ m ih =>
    intro n a h
    rw [natToCharsCore]
    by_cases h10 : n < 10
    · rw [if_pos h10]
      have e1 : charsToNat a [digitChar n] = 10 * a + ((digitChar n).toNat - 48) := rfl
      rw [e1, digitChar_toNat n h10]
      have e2 : ([digitChar n] : List Char).length = 1 := rfl
      rw [e2, pow_one]
      omega
    · rw [if_neg h10]
      have hdiv : n / 10 < m := by
        have h1 : n / 10 < n := Nat.div_lt_self (by omega) (by omega)
        omega
      rw [charsToNat_append, ih (n / 10) a hdiv]
      have e1 : ∀ b : Nat, charsToNat b [digitChar (n % 10)]
          = 10 * b + ((digitChar (n % 10)).toNat - 48) := fun b => rfl
      rw [e1, digitChar_toNat (n % 10) (Nat.mod_lt n (by omega))]
      simp only [List.length_append, List.length_singleton, pow_succ, ← mul_assoc]
      generalize a * 10 ^ (natToCharsCore m (n / 10)).length = A
      omega

theorem charsToNat_natToChars (n : Nat) : charsToNat 0 (natToChars n) = n := by
  unfold natToChars
  rw [natToCharsCore_val (n + 1) n 0 (Nat.lt_succ_self n)]
  simp

theorem natToChars_injective : Function.Injective natToChars := by
  intro m n h
  have := charsToNat_natToChars m
  rw [h, charsToNat_natToChars] at this
  omega

theorem findRBrace_eq_some :
    ∀ (l a b : List Char), findRBrace l = some (a, b) →
      l = a ++ '}' :: b ∧ '}' ∉ a := by
  intro l
  induction l with
  | nil => intro a b h; simp [findRBrace] at h
  | cons c rest ih =>
    intro a b h
    rw [findRBrace] at h
    by_cases hc : c = '}'
    · rw [if_pos hc] at h
      simp at h
      obtain ⟨h1, h2⟩ := h
      subst h1; subst h2; subst hc
      simp
    · rw [if_neg hc] at h
      match hfr : findRBrace rest with
      | none => rw [hfr] at h; simp at h
      | some (a', b') =>
        rw [hfr] at h
        simp at h
        obtain ⟨h1, h2⟩ := h
        subst h1; subst h2
        obtain ⟨ih1, ih2⟩ := ih a' b' hfr
        constructor
        · rw [ih1]; simp
        · intro hmem
          rcases List.mem_cons.mp hmem with h | h
          · exact hc h.symm
          · exact ih2 h

theorem findRBrace_eq_none :
    ∀ (l : List Char), findRBrace l = none → '}' ∉ l := by
  intro l
  induction l with
  | nil => intro _ h; simp at h
  | cons c rest ih =>
    intro h
    rw [findRBrace] at h
    by_cases hc : c = '}'
    · rw [if_pos hc] at h; simp at h
    · rw [if_neg hc] at h
      match hfr : findRBrace rest with
      | some p => rw [hfr] at h; simp at h
      | none =>
        intro hmem
        rcases List.mem_cons.mp hmem with h1 | h1
        · exact hc h1.symm
        · exact ih hfr h1

theorem reverseCore_nil (M : List (String × String)) :
    ∀ fuel, reverseCore M fuel [] = some [] := by
  intro fuel
  cases fuel <;> rfl

theorem mem_of_mem_dropWhile (p : Char → Bool) :
    ∀ (l : List Char) (c : Char), c ∈ l.dropWhile p → c ∈ l := by
  intro l
  induction l with
  | nil => intro c h; simp [List.dropWhile] at h
  | cons a rest ih =>
    intro c h
    rw [List.dropWhile] at h
    by_cases hp : p a
    · rw [hp] at h
      exact List.mem_cons_of_mem a (ih c h)
    · rw [Bool.not_eq_true] at hp
      rw [hp] at h
      exact h

theorem takeWhile_append_stop (p : Char → Bool) :
    ∀ (a : List Char) (b : Char) (t : List Char),
      (∀ x ∈ a, p x = true) → p b = false →
      (a ++ b :: t).takeWhile p = a ∧ (a ++ b :: t).dropWhile p = b :: t := by
  intro a
  induction a with
  | nil =>
    intro b t _ hb
    constructor
    · simp [List.takeWhile, hb]
    · simp [List.dropWhile, hb]
  | cons x rest ih =>
    intro b t ha hb
    have hx : p x = true := ha x (List.mem_cons_self x rest)
    have hrest : ∀ y ∈ rest, p y = true := fun y hy => ha y (List.mem_cons_of_mem x hy)
    obtain ⟨ih1, ih2⟩ := ih b t hrest hb
    constructor
    · rw [List.cons_append, List.takeWhile_cons_of_pos hx, ih1]
    · rw [List.cons_append, List.dropWhile_cons_of_pos hx, ih2]

theorem encodeCore_nil (fe k : Nat) : encodeCore fe k [] = ([], []) := by
  cases fe <;> rfl

theorem encodeCore_brace (n k : Nat) (rest inner after : List Char)
    (hfr : findRBrace rest = some (inner, after)) :
    encodeCore (n + 1) k ('{' :: rest)
      = ('{' :: (natToChars k ++ '}' :: (encodeCore n (k + 1) after).1),
         (String.mk (natToChars k), String.mk inner) :: (encodeCore n (k + 1) after).2) := by
  rw [encodeCore, if_pos rfl, hfr]

theorem encodeCore_brace_none (n k : Nat) (rest : List Char)
    (hfr : findRBrace rest = none) :
    encodeCore (n + 1) k ('{' :: rest) = ('{' :: rest, []) := by
  rw [encodeCore, if_pos rfl, hfr]

theorem encodeCore_other (n k : Nat) (c : Char) (rest : List Char) (hc : c ≠ '{') :
    encodeCore (n + 1) k (c :: rest)
      = (c :: (encodeCore n k rest).1, (encodeCore n k rest).2) := by
  rw [encodeCore, if_neg hc]

theorem reverseCore_cons_hit (M : List (String × String)) (n : Nat)
    (rest after : List Char) (v : String)
    (hdw : rest.dropWhile isDig = '}' :: after)
    (hlk : List.lookup (String.mk (rest.takeWhile isDig)) M = some v) :
    reverseCore M (n + 1) ('{' :: rest)
      = (reverseCore M n after).map (fun t => '{' :: (v.data ++ '}' :: t)) := by
  rw [reverseCore, if_pos rfl, hdw]
  simp [hlk]

theorem reverseCore_cons_miss (M : List (String × String)) (n : Nat)
    (rest after : List Char)
    (hdw : rest.dropWhile isDig = '}' :: after)
    (hlk : List.lookup (String.mk (rest.takeWhile isDig)) M = none) :
    reverseCore M (n + 1) ('{' :: rest) = none := by
  rw [reverseCore, if_pos rfl, hdw]
  simp [hlk]

theorem reverseCore_cons_stuck_nil (M : List (String × String)) (n : Nat)
    (rest : List Char) (hdw : rest.dropWhile isDig = []) :
    reverseCore M (n + 1) ('{' :: rest)
      = (reverseCore M n rest).map (fun t => '{' :: t) := by
  rw [reverseCore, if_pos rfl, hdw]

theorem reverseCore_cons_stuck (M : List (String × String)) (n : Nat)
    (rest after : List Char) (c2 : Char)
    (hdw : rest.dropWhile isDig = c2 :: after) (hc2 : c2 ≠ '}') :
    reverseCore M (n + 1) ('{' :: rest)
      = (reverseCore M n rest).map (fun t => '{' :: t) := by
  rw [reverseCore, if_pos rfl, hdw]
  simp [hc2]

theorem reverseCore_cons_other (M : List (String × String)) (n : Nat)
    (c : Char) (rest : List Char) (hc : c ≠ '{') :
    reverseCore M (n + 1) (c :: rest)
      = (reverseCore M n rest).map (fun t => c :: t) := by
  rw [reverseCore, if_neg hc]

theorem lookup_cons_self (a v : String) (tl : List (String × String)) :
    List.lookup a ((a, v) :: tl) = some v := by
  simp [List.lookup]

theorem lookup_cons_ne (a b v : String) (tl : List (String × String)) (h : a ≠ b) :
    List.lookup a ((b, v) :: tl) = List.lookup a tl := by
  simp only [List.lookup]
  rw [beq_eq_false_iff_ne.mpr h]

/-- `reverse` on a text with no `}` copies the text through unchanged:
the regex `{([0-9]*)}` cannot match anywhere. -/
theorem reverseCore_no_rbrace (M : List (String × String)) :
    ∀ (fuel : Nat) (l : List Char), l.length ≤ fuel → '}' ∉ l →
      reverseCore M fuel l = some l := by
  intro fuel
  induction fuel with
  | zero =>
    intro l hl _
    have : l = [] := List.length_eq_zero.mp (Nat.le_zero.mp hl)
    subst this
    rfl
  | succ n ih =>
    intro l hl hnb
    match l with
    | [] => rfl
    | c :: rest =>
      have hrl : rest.length ≤ n := by simp at hl; omega
      have hnr : '}' ∉ rest := fun h => hnb (List.mem_cons_of_mem c h)
      by_cases hc : c = '{'
      · subst hc
        match hdw : rest.dropWhile isDig with
        | [] =>
          rw [reverseCore_cons_stuck_nil M n rest hdw, ih rest hrl hnr]
          rfl
        | c2 :: after =>
          have hc2 : c2 ≠ '}' := by
            intro h
            subst h
            exact hnr (mem_of_mem_dropWhile isDig rest '}'
              (hdw ▸ List.mem_cons_self '}' after))
          rw [reverseCore_cons_stuck M n rest after c2 hdw hc2, ih rest hrl hnr]
          rfl
      · rw [reverseCore_cons_other M n c rest hc, ih rest hrl hnr]
        rfl

/-- Every key stored by `encodeCore` starting at index `k` is `str(j)`
for some `j ≥ k`. -/
theorem encodeCore_keys_ge :
    ∀ (fe : Nat) (l : List Char) (k : Nat) (e : String × String),
      e ∈ (encodeCore fe k l).2 →
      ∃ j, k ≤ j ∧ e.1 = String.mk (natToChars j) := by
  intro fe
  induction fe with
  | zero => intro l k e he; rw [show encodeCore 0 k l = ([], []) from rfl] at he; simp at he
  | succ n ih =>
    intro l k e he
    match l with
    | [] => rw [encodeCore_nil] at he; simp at he
    | c :: rest =>
      by_cases hc : c = '{'
      · subst hc
        match hfr : findRBrace rest with
        | none =>
          rw [encodeCore_brace_none n k rest hfr] at he
          simp at he
        | some (inner, after) =>
          rw [encodeCore_brace n k rest inner after hfr] at he
          rcases List.mem_cons.mp he with h | h
          · exact ⟨k, Nat.le_refl k, by rw [h]⟩
          · obtain ⟨j, hj, hkey⟩ := ih after (k + 1) e h
            exact ⟨j, by omega, hkey⟩
      · rw [encodeCore_other n k c rest hc] at he
        exact ih rest k e he

/-- The mapping built by `encodeCore` is its own lookup table: looking up
the key of any stored entry returns that entry's value (keys `str(k)`,
`str(k+1)`, ... are pairwise distinct). -/
theorem encodeCore_lookup_self :
    ∀ (fe : Nat) (l : List Char) (k : Nat) (e : String × String),
      e ∈ (encodeCore fe k l).2 →
      List.lookup e.1 (encodeCore fe k l).2 = some e.2 := by
  intro fe
  induction fe with
  | zero => intro l k e he; rw [show encodeCore 0 k l = ([], []) from rfl] at he; simp at he
  | succ n ih =>
    intro l k e he
    match l with
    | [] => rw [encodeCore_nil] at he; simp at he
    | c :: rest =>
      by_cases hc : c = '{'
      · subst hc
        match hfr : findRBrace rest with
        | none =>
          rw [encodeCore_brace_none n k rest hfr] at he
          simp at he
        | some (inner, after) =>
          rw [encodeCore_brace n k rest inner after hfr] at he
          rw [encodeCore_brace n k rest inner after hfr]
          rcases List.mem_cons.mp he with h | h
          · rw [h]
            exact lookup_cons_self _ _ _
          · obtain ⟨j, hj, hkey⟩ := encodeCore_keys_ge n after (k + 1) e h
            have hne : e.1 ≠ String.mk (natToChars k) := by
              rw [hkey]
              intro hmk
              have : natToChars j = natToChars k := by
                have := congrArg String.data hmk
                simpa using this
              have := natToChars_injective this
              omega
            rw [lookup_cons_ne e.1 (String.mk (natToChars k)) _ _ hne]
            exact ih after (k + 1) e h
      · rw [encodeCore_other n k c rest hc] at he
        rw [encodeCore_other n k c rest hc]
        exact ih rest k e he

/-- Core of the round-trip property: decoding the masked text produced by
`encodeCore` against any map `M` that agrees with the stored entries
reconstructs the original text. -/
theorem roundtrip_core :
    ∀ (fe : Nat) (l : List Char) (k : Nat) (M : List (String × String)) (fr : Nat),
      l.length ≤ fe →
      (∀ e ∈ (encodeCore fe k l).2, List.lookup e.1 M = some e.2) →
      (encodeCore fe k l).1.length ≤ fr →
      reverseCore M fr (encodeCore fe k l).1 = some l := by
  intro fe
  induction fe with
  | zero =>
    intro l k M fr hl _ _
    have hnil : l = [] := List.length_eq_zero.mp (Nat.le_zero.mp hl)
    subst hnil
    rw [encodeCore_nil]
    exact reverseCore_nil M fr
  | succ n ih =>
    intro l k M fr hl hlk hout
    match l with
    | [] =>
      rw [encodeCore_nil]
      exact reverseCore_nil M fr
    | c :: rest =>
      by_cases hc : c = '{'
      · subst hc
        match hfr2 : findRBrace rest with
        | none =>
          rw [encodeCore_brace_none n k rest hfr2] at hout ⊢
          have hnb : '}' ∉ '{' :: rest := by
            intro hm
            rcases List.mem_cons.mp hm with h | h
            · exact absurd h.symm (by decide)
            · exact findRBrace_eq_none rest hfr2 h
          exact reverseCore_no_rbrace M fr ('{' :: rest) hout hnb
        | some (inner, after) =>
          obtain ⟨hrest_eq, _⟩ := findRBrace_eq_some rest inner after hfr2
          rw [encodeCore_brace n k rest inner after hfr2] at hlk hout ⊢
          cases fr with
          | zero => simp at hout
          | succ fr' =>
            obtain ⟨htw, hdw⟩ := takeWhile_append_stop isDig (natToChars k) '}'
              (encodeCore n (k + 1) after).1 (natToChars_isDig k) (by decide)
            have hhead : List.lookup (String.mk (natToChars k)) M = some (String.mk inner) :=
              hlk (String.mk (natToChars k), String.mk inner)
                (List.mem_cons_self _ _)
            rw [reverseCore_cons_hit M fr' _ _ (String.mk inner) hdw
              (by rw [htw]; exact hhead)]
            have hafter_len : after.length ≤ n := by
              have h1 : rest.length ≤ n := by simp at hl; omega
              rw [hrest_eq] at h1
              simp at h1
              omega
            have hr1_len : (encodeCore n (k + 1) after).1.length ≤ fr' := by
              simp at hout
              omega
            have hrec : reverseCore M fr' (encodeCore n (k + 1) after).1 = some after :=
              ih after (k + 1) M fr' hafter_len
                (fun e he => hlk e (List.mem_cons_of_mem _ he)) hr1_len
            rw [hrec]
            simp [hrest_eq, string_data_mk]
      · rw [encodeCore_other n k c rest hc] at hlk hout ⊢
        cases fr with
        | zero => simp at hout
        | succ fr' =>
          rw [reverseCore_cons_other M fr' c _ hc]
          have hrec : reverseCore M fr' (encodeCore n k rest).1 = some rest :=
            ih rest k M fr' (by simp at hl; omega) hlk (by simp at hout; omega)
          rw [hrec]
          rfl

/-- C1: placeholder round-trip — for every string, decoding the masked
text produced by `_ParsePythonFormat(s)` against its own mapping (the
simulated backend returning the masked text unmodified) reconstructs `s`
exactly. -/
theorem claim1_placeholder_roundtrip (s : String) :
    (parsePythonFormat s).reverse (parsePythonFormat s).output = some s := by
  show (reverseCore (encodeCore s.data.length 0 s.data).2
      (String.mk (encodeCore s.data.length 0 s.data).1).data.length
      (String.mk (encodeCore s.data.length 0 s.data).1).data).map String.mk = some s
  rw [string_data_mk]
  rw [roundtrip_core s.data.length s.data 0 (encodeCore s.data.length 0 s.data).2
    (encodeCore s.data.length 0 s.data).1.length (Nat.le_refl _)
    (encodeCore_lookup_self s.data.length s.data 0) (Nat.le_refl _)]
  rfl

/-- Decoding any text that contains a `{digits}` token whose digit string
is not a key of the mapping fails (models the `KeyError` raised by
`self._mapping[match[1]]` in `_ParsePythonFormat.reverse`).  The token may
be preceded by an arbitrary brace-free prefix. -/
theorem reverseCore_unmatched :
    ∀ (fuel : Nat) (M : List (String × String)) (pre ds rest : List Char),
      '{' ∉ pre → (∀ c ∈ ds, isDig c = true) →
      List.lookup (String.mk ds) M = none →
      (pre ++ ('{' :: (ds ++ ('}' :: rest)))).length ≤ fuel →
      reverseCore M fuel (pre ++ ('{' :: (ds ++ ('}' :: rest)))) = none := by
  intro fuel
  induction fuel with
  | zero =>
    intro M pre ds rest _ _ _ hlen
    rw [List.length_append] at hlen
    simp at hlen
  | succ n ih =>
    intro M pre ds rest hpre hds hlk hlen
    match pre with
    | [] =>
      obtain ⟨htw, hdw⟩ := takeWhile_append_stop isDig ds '}' rest hds (by decide)
      exact reverseCore_cons_miss M n (ds ++ '}' :: rest) rest hdw
        (by rw [htw]; exact hlk)
    | c :: pre' =>
      have hc : c ≠ '{' := fun h => hpre (h ▸ List.mem_cons_self c pre')
      rw [List.cons_append, reverseCore_cons_other M n c _ hc]
      rw [ih M pre' ds rest (fun h => hpre (List.mem_cons_of_mem c h)) hds hlk
        (by simp at hlen ⊢; omega)]
      rfl

theorem scanInners_nil (fe : Nat) : scanInners fe [] = [] := by
  cases fe <;> rfl

theorem scanInners_brace (n : Nat) (rest inner after : List Char)
    (hfr : findRBrace rest = some (inner, after)) :
    scanInners (n + 1) ('{' :: rest) = inner :: scanInners n after := by
  rw [scanInners, if_pos rfl, hfr]

theorem scanInners_brace_none (n : Nat) (rest : List Char)
    (hfr : findRBrace rest = none) :
    scanInners (n + 1) ('{' :: rest) = [] := by
  rw [scanInners, if_pos rfl, hfr]

theorem scanInners_other (n : Nat) (c : Char) (rest : List Char) (hc : c ≠ '{') :
    scanInners (n + 1) (c :: rest) = scanInners n rest := by
  rw [scanInners, if_neg hc]

/-- The mapping built by the `_ParsePythonFormat` constructor is exactly:
the k-th placeholder inner text encountered in the left-to-right scan
(0-based, counting from the start index) keyed by `str(k)`, whatever the
inner text is. -/
theorem encodeCore_mapping :
    ∀ (fe k : Nat) (l : List Char),
      (encodeCore fe k l).2
        = (List.enumFrom k (scanInners fe l)).map
            (fun p => (String.mk (natToChars p.1), String.mk p.2)) := by
  intro fe
  induction fe with
  | zero => intro k l; rfl
  | succ n ih =>
    intro k l
    match l with
    | [] => rfl
    | c :: rest =>
      by_cases hc : c = '{'
      · subst hc
        match hfr : findRBrace rest with
        | none =>
          rw [encodeCore_brace_none n k rest hfr, scanInners_brace_none n rest hfr]
          rfl
        | some (inner, after) =>
          rw [encodeCore_brace n k rest inner after hfr,
            scanInners_brace n rest inner after hfr, List.enumFrom]
          rw [List.map_cons, ih (k + 1) after]
      · rw [encodeCore_other n k c rest hc, scanInners_other n c rest hc]
        exact ih k rest

theorem lookup_append_self (k v : String) (c : Cache)
    (h : List.lookup k c = none) :
    List.lookup k (c ++ [(k, v)]) = some v := by
  induction c with
  | nil => simp [List.lookup]
  | cons p rest ih =>
    obtain ⟨a, b⟩ := p
    by_cases hak : k = a
    · subst hak
      rw [lookup_cons_self] at h
      simp at h
    · rw [List.cons_append, lookup_cons_ne k a b _ hak]
      rw [lookup_cons_ne k a b rest hak] at h
      exact ih h

/-- Cache-hit path of `__parse_message_node`: the cached value is written
into the translation text, no backend call, no cache mutation. -/
theorem parse_message_node_hit (b : String → Option String) (cache : Cache)
    (m : MsgNode) (t : TrNode) (s v : String)
    (hm : m.translation = some t) (hty : t.ty = some "unfinished")
    (htext : t.text = some "" ∨ t.text = none)
    (hsrc : m.source = some (some s))
    (hlk : List.lookup (replace_special_characters s) cache = some v) :
    parse_message_node b cache m
      = (PResult.ok { m with translation := some { t with text := some v } } cache, 0) := by
  obtain ⟨msrc, mtr⟩ := m
  obtain ⟨tty, ttext⟩ := t
  simp only at hm hsrc
  subst hm
  subst hsrc
  simp only at hty
  subst hty
  simp only [parse_message_node]
  rw [if_pos ⟨trivial, htext⟩]
  simp only [hlk]

/-- Cache-miss path of `__parse_message_node`: encode, call the backend,
decode, write the result, append it to the cache, one backend call. -/
theorem parse_message_node_miss (b : String → Option String) (cache : Cache)
    (m : MsgNode) (t : TrNode) (s tr dec : String)
    (hm : m.translation = some t) (hty : t.ty = some "unfinished")
    (htext : t.text = some "" ∨ t.text = none)
    (hsrc : m.source = some (some s))
    (hlk : List.lookup (replace_special_characters s) cache = none)
    (hb : b (parsePythonFormat (replace_special_characters s)).output = some tr)
    (hr : (parsePythonFormat (replace_special_characters s)).reverse tr = some dec) :
    parse_message_node b cache m
      = (PResult.ok { m with translation := some { t with text := some dec } }
          (cache ++ [(replace_special_characters s, dec)]), 1) := by
  obtain ⟨msrc, mtr⟩ := m
  obtain ⟨tty, ttext⟩ := t
  simp only at hm hsrc
  subst hm
  subst hsrc
  simp only at hty
  subst hty
  simp only [parse_message_node]
  rw [if_pos ⟨trivial, htext⟩]
  simp only [hlk, hb, hr]

/-- `checkFlat` fails exactly when some stored value is not a string. -/
theorem checkFlat_eq_none :
    ∀ (es : List (String × Json)),
      checkFlat es = none ↔ es.all (fun p => valIsStr p.2) = false := by
  intro es
  induction es with
  | nil => simp [checkFlat]
  | cons p rest ih =>
    obtain ⟨k, v⟩ := p
    match v with
    | Json.str w => simp [checkFlat, valIsStr, ih]
    | Json.null => simp [checkFlat, valIsStr]
    | Json.bool x => simp [checkFlat, valIsStr]
    | Json.num x => simp [checkFlat, valIsStr]
    | Json.arr x => simp [checkFlat, valIsStr]
    | Json.obj x => simp [checkFlat, valIsStr]

/-- `load_cache` rejects a present cache file exactly when it is not a
flat string-to-string object. -/
theorem load_cache_corrupt_iff (j : Json) :
    load_cache (some j) = LoadResult.corrupt ↔ flatOk j = false := by
  match j with
  | Json.null => simp [load_cache, flatOk]
  | Json.bool x => simp [load_cache, flatOk]
  | Json.num x => simp [load_cache, flatOk]
  | Json.str x => simp [load_cache, flatOk]
  | Json.arr x => simp [load_cache, flatOk]
  | Json.obj es =>
    have aux : load_cache (some (Json.obj es)) = LoadResult.corrupt
        ↔ checkFlat es = none := by
      match hcf : checkFlat es with
      | some c => simp [load_cache, hcf]
      | none => simp [load_cache, hcf]
    rw [aux, checkFlat_eq_none]
    simp [flatOk]

/-- C10: for every input string, the output of
`replace_special_characters` contains no `&` character at all — the final
`replace("&", "")` deletes every remaining ampersand, including the one
in the `\&` sequence just produced for `&amp;`. -/
theorem claim10_no_ampersand (s : String) :
    '&' ∉ (replace_special_characters s).data :=
  replace_special_no_amp s

/-- C4 counterexample: the claim says normalizing `"A &amp; B"` yields a
form still containing the two-character sequence backslash-ampersand; in
fact the result is `"A \ B"` (lone backslash) and contains no `&` at
all. -/
theorem claim4_counterexample :
    replace_special_characters "A &amp; B" = "A \\ B"
      ∧ '&' ∉ (replace_special_characters "A &amp; B").data := by
  exact ⟨rfl, by decide⟩

/-- C4 (amended): normalization resolves `&quot; &apos; &lt; &gt;` to
their literal characters and turns `&amp;` momentarily into `\&`, but the
final strip of bare `&` characters also deletes the `&` of that `\&`, so
`&amp;` ends up as a lone backslash and the output never contains `&`;
in particular `"A &amp; B"` normalizes to `"A \ B"`. -/
theorem claim4_amended_entity_normalization :
    replace_special_characters "&quot;q&quot;" = "\"q\""
      ∧ replace_special_characters "&apos;a&apos;" = "\x27a\x27"
      ∧ replace_special_characters "&lt;tag&gt;" = "<tag>"
      ∧ replace_special_characters "A &amp; B" = "A \\ B"
      ∧ (∀ s : String, '&' ∉ (replace_special_characters s).data) :=
  ⟨rfl, rfl, rfl, rfl, replace_special_no_amp⟩

/-- C2 counterexample: decoding `"{5}"` against the map built from
`"foo {a}"` (whose only key is `"0"`) does not propagate `{5}` unchanged;
the dictionary access raises `KeyError`, modelled as `none`. -/
theorem claim2_counterexample :
    (parsePythonFormat "foo {a}").reverse "{5}" = none := rfl

/-- C2 (amended): when `reverse` encounters a token `{<digits>}` whose
digit string is not a key of the map, it raises `KeyError` (modelled as
`none`) instead of propagating the token into the output; shown here for
any brace-free prefix before the unmatched token. -/
theorem claim2_amended_unmatched_token_fails
    (p : ParsePythonFormat) (pre ds rest : List Char)
    (hpre : '{' ∉ pre) (hds : ∀ c ∈ ds, isDig c = true)
    (hlk : List.lookup (String.mk ds) p.mapping = none) :
    p.reverse (String.mk (pre ++ ('{' :: (ds ++ ('}' :: rest))))) = none := by
  unfold ParsePythonFormat.reverse
  rw [string_data_mk]
  rw [reverseCore_unmatched _ p.mapping pre ds rest hpre hds hlk (Nat.le_refl _)]
  rfl

theorem claim2_witness :
    (parsePythonFormat "foo {a}").reverse
      (String.mk (['x'] ++ ('{' :: (['5'] ++ ('}' :: ['y']))))) = none :=
  claim2_amended_unmatched_token_fails (parsePythonFormat "foo {a}")
    ['x'] ['5'] ['y'] (by decide) (by decide) (by decide)

/-- C9: the flush at the end of `translate` writes the serialized mapping
to the temporary file and then renames it over the target; after the
first step alone (a crash before the rename) the previously persisted
target is untouched, and after the rename the target holds the full
serialized mapping.  The destination file is never written directly. -/
theorem claim9_atomic_flush (c : Cache) (fs : FileState) :
    (write_tmp_cache c fs).target = fs.target
      ∧ (flush_cache c fs).target = some (cacheToJson c) :=
  ⟨rfl, rfl⟩

/-- C7: `encodeCore` assigns the k-th placeholder of the scan (0-based)
the key `str(k)` and stores the exact inner text, whatever the original
content; concretely, `"foo {1} {0}"` encodes to `"foo {0} {1}"` with map
`{"0": "1", "1": "0"}`, and decoding `"{0} bar {1}"` against that map
yields `"{1} bar {0}"`. -/
theorem claim7_encode_indices :
    (∀ s : String, (parsePythonFormat s).mapping
        = (List.enumFrom 0 (scanInners s.data.length s.data)).map
            (fun p => (String.mk (natToChars p.1), String.mk p.2)))
      ∧ (parsePythonFormat "foo {1} {0}").output = "foo {0} {1}"
      ∧ (parsePythonFormat "foo {1} {0}").mapping = [("0", "1"), ("1", "0")]
      ∧ (parsePythonFormat "foo {1} {0}").reverse "{0} bar {1}" = some "{1} bar {0}" := by
  refine ⟨?_, by decide, by decide, by decide⟩
  intro s
  exact encodeCore_mapping s.data.length 0 s.data

/-- C8: with no cache file the run starts from the empty cache; a present
file whose content is not a flat string-to-string mapping fails the
assertion check (`corrupt`), and then `translate` aborts before any
backend call is made. -/
theorem claim8_cache_load :
    load_cache none = LoadResult.ok []
      ∧ (∀ j : Json, load_cache (some j) = LoadResult.corrupt ↔ flatOk j = false)
      ∧ (∀ (b : String → Option String) (j : Json) (msgs : List MsgNode),
          flatOk j = false → translateRun b (some j) msgs = (TResult.err, 0)) := by
  refine ⟨rfl, load_cache_corrupt_iff, ?_⟩
  intro b j msgs hflat
  unfold translateRun
  rw [(load_cache_corrupt_iff j).mpr hflat]

theorem claim8_witness :
    translateRun backendAB (some (Json.obj [("k", Json.num 1)])) [msgA]
      = (TResult.err, 0) :=
  claim8_cache_load.2.2 backendAB (Json.obj [("k", Json.num 1)]) [msgA] rfl

/-- C3 counterexample: with an initially absent cache file, a run over
two eligible messages whose first translation succeeds (shown: the
message is translated and the entry `("aa", "AA")` is created) and whose
second backend call raises leaves the cache file absent — the completed
first translation is not persisted, contradicting the claim that every
translation completed before the failing message is already in the cache
file. -/
theorem claim3_counterexample :
    parse_message_node backendAB [] msgA = (PResult.ok msgA_done [("aa", "AA")], 1)
      ∧ persisted_cache_file backendAB none [msgA, msgB] = none :=
  ⟨rfl, rfl⟩

/-- C3 (amended): the cache is dumped to its file exactly once, at the
end of a run in which no exception was raised; when a backend exception
aborts the run, the dump is never executed, so translations completed
earlier in that run are not persisted and the file keeps its previous
content. -/
theorem claim3_amended_flush_at_end_only :
    (∀ (b : String → Option String) (cf : Option Json) (msgs ms : List MsgNode)
        (c : Cache) (n : Nat),
      translateRun b cf msgs = (TResult.ok ms c, n) →
      persisted_cache_file b cf msgs = some (cacheToJson c))
      ∧ (∀ (b : String → Option String) (cf : Option Json) (msgs : List MsgNode)
          (n : Nat),
        translateRun b cf msgs = (TResult.err, n) →
        persisted_cache_file b cf msgs = cf) := by
  constructor
  · intro b cf msgs ms c n h
    unfold persisted_cache_file
    rw [h]
  · intro b cf msgs n h
    unfold persisted_cache_file
    rw [h]

theorem claim3_witness :
    persisted_cache_file backendAB none [msgA] = some (cacheToJson [("aa", "AA")]) :=
  claim3_amended_flush_at_end_only.1 backendAB none [msgA] [msgA_done]
    [("aa", "AA")] 1 (by decide)

/-- C5: a message's translation text is written iff the message has a
translation element whose `type` attribute equals `"unfinished"` and
whose text is empty or absent.  A missing translation element, a missing
`type` attribute, non-empty text, or a non-`unfinished` type leave the
message and the cache untouched with no backend call; in the eligible
case any successful processing sets the translation text. -/
theorem claim5_eligibility_filter :
    (∀ (b : String → Option String) (c : Cache) (m : MsgNode),
      m.translation = none → parse_message_node b c m = (PResult.ok m c, 0))
      ∧ (∀ (b : String → Option String) (c : Cache) (m : MsgNode) (t : TrNode),
        m.translation = some t → t.ty = none →
        parse_message_node b c m = (PResult.ok m c, 0))
      ∧ (∀ (b : String → Option String) (c : Cache) (m : MsgNode) (t : TrNode) (s : String),
        m.translation = some t → t.ty = some "unfinished" → t.text = some s → s ≠ "" →
        parse_message_node b c m = (PResult.ok m c, 0))
      ∧ (∀ (b : String → Option String) (c : Cache) (m : MsgNode) (t : TrNode) (ty : String),
        m.translation = some t → t.ty = some ty → ty ≠ "unfinished" →
        parse_message_node b c m = (PResult.ok m c, 0))
      ∧ (∀ (b : String → Option String) (c : Cache) (m : MsgNode) (t : TrNode)
          (m1 : MsgNode) (c1 : Cache) (n : Nat),
        m.translation = some t → t.ty = some "unfinished" →
        (t.text = some "" ∨ t.text = none) →
        parse_message_node b c m = (PResult.ok m1 c1, n) →
        ∃ v, m1 = { m with translation := some { t with text := some v } }) := by
  refine ⟨?_, ?_, ?_, ?_, ?_⟩
  · intro b c m hm
    obtain ⟨msrc, mtr⟩ := m
    simp only at hm
    subst hm
    rfl
  · intro b c m t hm hty
    obtain ⟨msrc, mtr⟩ := m
    obtain ⟨tty, ttext⟩ := t
    simp only at hm
    subst hm
    simp only at hty
    subst hty
    rfl
  · intro b c m t s hm hty htext hs
    obtain ⟨msrc, mtr⟩ := m
    obtain ⟨tty, ttext⟩ := t
    simp only at hm
    subst hm
    simp only at hty
    subst hty
    simp only at htext
    subst htext
    simp only [parse_message_node]
    split
    · rename_i hcond
      exfalso
      rcases hcond.2 with h1 | h1
      · exact hs (by injection h1)
      · exact Option.noConfusion h1
    · rfl
  · intro b c m t ty hm hty hne
    obtain ⟨msrc, mtr⟩ := m
    obtain ⟨tty, ttext⟩ := t
    simp only at hm
    subst hm
    simp only at hty
    subst hty
    simp only [parse_message_node]
    split
    · rename_i hcond
      exact absurd hcond.1 hne
    · rfl
  · intro b c m t m1 c1 n hm hty htext hres
    obtain ⟨msrc, mtr⟩ := m
    obtain ⟨tty, ttext⟩ := t
    simp only at hm
    subst hm
    simp only at hty
    subst hty
    simp only [parse_message_node] at hres
    rw [if_pos ⟨trivial, htext⟩] at hres
    split at hres
    · split at hres
      · rename_i s v hlk
        simp only [Prod.mk.injEq, PResult.ok.injEq] at hres
        exact ⟨v, hres.1.1.symm⟩
      · split at hres
        · simp at hres
        · split at hres
          · simp at hres
          · rename_i s hlk tr hb dec hr
            simp only [Prod.mk.injEq, PResult.ok.injEq] at hres
            exact ⟨dec, hres.1.1.symm⟩
    · simp at hres

theorem claim5_witness :
    parse_message_node backendAB [] msgUnfin = (PResult.ok msgUnfin [], 0) :=
  claim5_eligibility_filter.2.2.1 backendAB [] msgUnfin
    { ty := some "unfinished", text := some "done" } "done" rfl rfl rfl (by decide)

/-- C6: a cache hit writes the cached value into the translation text
with no backend call and no cache mutation; consequently two eligible
messages with the same normalized source text processed in one run cost
exactly one backend call, and the second message receives the same
translation as the first, from the cache. -/
theorem claim6_cache_hit :
    (∀ (b : String → Option String) (cache : Cache) (m : MsgNode) (t : TrNode)
        (s v : String),
      m.translation = some t → t.ty = some "unfinished" →
      (t.text = some "" ∨ t.text = none) → m.source = some (some s) →
      List.lookup (replace_special_characters s) cache = some v →
      parse_message_node b cache m
        = (PResult.ok { m with translation := some { t with text := some v } } cache, 0))
      ∧ (∀ (b : String → Option String) (cache : Cache) (m1 m2 : MsgNode)
          (t1 t2 : TrNode) (s1 s2 tr dec : String),
        m1.translation = some t1 → t1.ty = some "unfinished" →
        (t1.text = some "" ∨ t1.text = none) → m1.source = some (some s1) →
        m2.translation = some t2 → t2.ty = some "unfinished" →
        (t2.text = some "" ∨ t2.text = none) → m2.source = some (some s2) →
        replace_special_characters s2 = replace_special_characters s1 →
        List.lookup (replace_special_characters s1) cache = none →
        b (parsePythonFormat (replace_special_characters s1)).output = some tr →
        (parsePythonFormat (replace_special_characters s1)).reverse tr = some dec →
        run_messages b cache [m1, m2]
          = (RResult.ok
              [{ m1 with translation := some { t1 with text := some dec } },
               { m2 with translation := some { t2 with text := some dec } }]
              (cache ++ [(replace_special_characters s1, dec)]), 1)) := by
  constructor
  · intro b cache m t s v hm hty htext hsrc hlk
    exact parse_message_node_hit b cache m t s v hm hty htext hsrc hlk
  · intro b cache m1 m2 t1 t2 s1 s2 tr dec hm1 hty1 htext1 hsrc1 hm2 hty2 htext2
      hsrc2 hkey hlk hb hr
    have h1 := parse_message_node_miss b cache m1 t1 s1 tr dec hm1 hty1 htext1
      hsrc1 hlk hb hr
    have hlk2 : List.lookup (replace_special_characters s2)
        (cache ++ [(replace_special_characters s1, dec)]) = some dec := by
      rw [hkey]
      exact lookup_append_self _ dec cache hlk
    have h2 := parse_message_node_hit b
      (cache ++ [(replace_special_characters s1, dec)]) m2 t2 s2 dec hm2 hty2
      htext2 hsrc2 hlk2
    simp only [run_messages, h1, h2]

theorem claim6_witness :
    run_messages backendEcho [] [msgPh, msgPh]
      = (RResult.ok
          [{ source := some (some "hi {n}"),
             translation := some { ty := some "unfinished", text := some "hi {n}" } },
           { source := some (some "hi {n}"),
             translation := some { ty := some "unfinished", text := some "hi {n}" } }]
          [("hi {n}", "hi {n}")], 1) :=
  claim6_cache_hit.2 backendEcho [] msgPh msgPh
    { ty := some "unfinished", text := none } { ty := some "unfinished", text := none }
    "hi {n}" "hi {n}" "hi {0}" "hi {n}"
    rfl rfl (Or.inr rfl) rfl rfl rfl (Or.inr rfl) rfl rfl (by decide) (by decide) (by decide)
